import Mathlib

/-!
Verification development for the GP-signal layer of `enterprise`
(`enterprise/signals/gp_signals.py`).

The Python source is shallowly embedded: the arithmetic done with numpy
floating point is modelled over `ℚ` where no transcendental function is
involved, and over `ℝ` where `log` and `π` appear.  External collaborators
(basis generators, spectrum generators, the Cholesky factorization from
sksparse, `KernelMatrix.inv`) are modelled as opaque function parameters,
exactly at the call boundary used by the source.
-/

namespace GPSignals

/- ----------------------------------------------------------------- -/
/- `BasisGP._construct_basis` (gp_signals.py lines 104-123): slice
   assignment.  The loop walks the sorted keys, keeping a running column
   offset `nctot`; each key with basis width `nn` receives the half-open
   column range `[nctot, nctot + nn)`, and `nctot` advances by `nn`.     -/

/-- Model of the slice-assignment loop of `BasisGP._construct_basis`:
given the running offset `acc` and the per-key basis widths (in sorted-key
order), return the list of half-open column ranges `(start, stop)`. -/
def sliceStarts : Nat → List Nat → List (Nat × Nat)
  | _, [] => []
  | acc, w :: ws => (acc, acc + w) :: sliceStarts (acc + w) ws

/-- The recorded slices `self._slices`, in sorted-key order
(`nctot` starts at 0). -/
def constructSlices (widths : List Nat) : List (Nat × Nat) :=
  sliceStarts 0 widths

/-- Shape of the combined basis matrix `self._basis = np.zeros((len(mask0), nc))`
with `nc = sum(F.shape[1] for F in basis.values())` (lines 110-111). -/
def constructBasisShape (nrows : Nat) (widths : List Nat) : Nat × Nat :=
  (nrows, widths.sum)

/- ----------------------------------------------------------------- -/
/- Coefficient mode (gp_signals.py lines 134-163).  Each selection key
   owns a `GPCoefficients` parameter; `get_delay` zero-fills a vector of
   length `self._basis.shape[1]`, writes each key's sampled (or point)
   coefficient value into that key's slice, and returns `basis @ c`.     -/

/-- Per-key data of a coefficient-mode `BasisGP`: the key's basis width
(`self._slices[key].stop - self._slices[key].start`), the name of its
`GPCoefficients` parameter, and that parameter's current point value
(`p.value`). -/
structure GPKey where
  width : Nat
  cname : String
  cvalue : List ℚ

/-- The coefficient sub-vector used for one key in `BasisGP.get_delay`
(line 161): `params[p.name] if p.name in params else p.value`. -/
def coeffFor (params : List (String × List ℚ)) (k : GPKey) : List ℚ :=
  match params.lookup k.cname with
  | some v => v
  | none => k.cvalue

/-- Numpy slice assignment `c[slc] = v` for the contiguous slice starting
at `start` (the value's length equals the slice width in every use). -/
def writeSlice (c : List ℚ) (start : Nat) (v : List ℚ) : List ℚ :=
  c.take start ++ v ++ c.drop (start + v.length)

/-- The loop of `BasisGP.get_delay` (lines 158-161): start from
`c = np.zeros(self._basis.shape[1])` and write each key's coefficient
vector into that key's recorded slice, in sorted-key order. -/
def assembleCoeffs (params : List (String × List ℚ)) (keys : List GPKey) : List ℚ :=
  (keys.zip (constructSlices (keys.map GPKey.width))).foldl
    (fun c ks => writeSlice c ks.2.1 (coeffFor params ks.1))
    (List.replicate (keys.map GPKey.width).sum 0)

/-- Elementwise product-and-sum of two equal-length lists (`np.dot` on
vectors). -/
def dotL {R : Type} [Mul R] [Add R] [Zero R] (a b : List R) : R :=
  ((a.zip b).map (fun p => p.1 * p.2)).sum

/-- Matrix-vector product `np.dot(basis, c)`, rows as lists. -/
def matvec {R : Type} [Mul R] [Add R] [Zero R] (m : List (List R)) (v : List R) : List R :=
  m.map (fun row => dotL row v)

/-- `BasisGP.get_delay` in coefficient mode (lines 154-163):
`np.dot(self._basis, c)` with `c` assembled per key. -/
def getDelayCoeff (basis : List (List ℚ)) (params : List (String × List ℚ))
    (keys : List GPKey) : List ℚ :=
  matvec basis (assembleCoeffs params keys)

/-- Read back the entries of a half-open column slice `(start, stop)`. -/
def extractSlice (c : List ℚ) (s : Nat × Nat) : List ℚ :=
  (c.drop s.1).take (s.2 - s.1)

/- ----------------------------------------------------------------- -/
/- `FFTBasisGP._construct_prior` (gp_signals.py lines 275-296) and
   `FFTBasisCommonGP._construct_prior` (lines 631-650).  The spectrum
   generator is modelled pointwise (`psdf` maps one frequency to one PSD
   value; the source maps the generator over the whole label array with
   `components=1`).  `cutbins == 0`:
     `freqs_prior = np.concatenate([[freqs[1]], freqs])`
     `psd = np.concatenate([[-psd_prior[1]], psd_prior[2:]])`
   `cutbins > 0`:
     `psd = np.concatenate([np.zeros(cutbins), psd_prior[cutbins - 1:]])`
   with `psd_prior` evaluated on `freqs[1:]`.                            -/

/-- PSD array handed to `utils.psd2cov` by `FFTBasisGP._construct_prior`. -/
def FFTBasisGP_constructPSD (psdf : ℚ → ℚ) (cutbins : Nat) (freqs : List ℚ) : List ℚ :=
  if cutbins = 0 then
    let freqs_prior := freqs.getD 1 0 :: freqs
    let psd_prior := freqs_prior.map psdf
    (-(psd_prior.getD 1 0)) :: psd_prior.drop 2
  else
    let psd_prior := (freqs.drop 1).map psdf
    List.replicate cutbins 0 ++ psd_prior.drop (cutbins - 1)

/-- PSD array handed to `utils.psd2cov` by
`FFTBasisCommonGP._construct_prior` (same arithmetic, second code site). -/
def FFTBasisCommonGP_constructPSD (psdf : ℚ → ℚ) (cutbins : Nat) (freqs : List ℚ) : List ℚ :=
  if cutbins = 0 then
    let freqs_prior := freqs.getD 1 0 :: freqs
    let psd_prior := freqs_prior.map psdf
    (-(psd_prior.getD 1 0)) :: psd_prior.drop 2
  else
    let psd_prior := (freqs.drop 1).map psdf
    List.replicate cutbins 0 ++ psd_prior.drop (cutbins - 1)

/-- Concrete pointwise spectrum used as a fixture: value 5 at frequency
zero and 7 everywhere else. -/
def psdC4 : ℚ → ℚ := fun f => if f = 0 then 5 else 7

/- ----------------------------------------------------------------- -/
/- `BasisCommonGP.get_phicross` (gp_signals.py lines 505-510) and
   `FFTBasisCommonGP.get_phicross` (lines 666-675).  Per-instance state
   is the label array and the pulsar position; the class-level prior and
   overlap-reduction function are opaque collaborators.                  -/

/-- Per-series state of a common-GP signal instance: `self._labels` and
`self._psrpos`. -/
structure CommonInst where
  labels : List ℚ
  psrpos : List ℚ

/-- `BasisCommonGP.get_phicross(signal1, signal2, params)`: the shared
prior evaluated on `signal1._labels`, elementwise times the ORF value at
`(signal1._psrpos, signal2._psrpos)`. -/
def BasisCommonGP_getPhicross {P : Type} (prior : P → List ℚ → List ℚ)
    (orf : P → List ℚ → List ℚ → ℚ) (signal1 signal2 : CommonInst) (params : P) : List ℚ :=
  (prior params signal1.labels).map (fun x => x * orf params signal1.psrpos signal2.psrpos)

/-- `FFTBasisCommonGP.get_phicross(signal1, signal2, params)`: `signal1`'s
cached `_construct_prior` result, elementwise times the ORF value at
`(signal1._psrpos, signal2._psrpos)`. -/
def FFTBasisCommonGP_getPhicross {P : Type} (constructPrior : P → CommonInst → List ℚ)
    (orf : P → List ℚ → List ℚ → ℚ) (signal1 signal2 : CommonInst) (params : P) : List ℚ :=
  (constructPrior params signal1).map (fun x => x * orf params signal1.psrpos signal2.psrpos)

/-- Fixture prior: returns the label array itself. -/
def priorC5 : Unit → List ℚ → List ℚ := fun _ labels => labels

/-- Fixture ORF: constant 1, symmetric in its two position arguments. -/
def orfC5 : Unit → List ℚ → List ℚ → ℚ := fun _ _ _ => 1

/-- Fixture instance with labels `[1]` at position `[0]`. -/
def instAC5 : CommonInst := ⟨[1], [0]⟩

/-- Fixture instance with labels `[2]` at position `[0]`. -/
def instBC5 : CommonInst := ⟨[2], [0]⟩

/-- Fixture instance with the same labels as `instAC5` at position `[9]`. -/
def instCC5 : CommonInst := ⟨[1], [9]⟩

/- ----------------------------------------------------------------- -/
/- `WidebandTimingModel.__init__` (gp_signals.py lines 828-851): DMX
   interval collection and configuration validation.  Observation times
   are `psr.stoas / 86400` in days.                                      -/

/-- One entry of `psr.dmx`: the DMX parameter name (dict key), its `fit`
flag, nominal `DMX` value, and interval bounds `DMXR1`/`DMXR2` (days). -/
structure DMXEntry where
  key : String
  fit : Bool
  DMX : ℚ
  DMXR1 : ℚ
  DMXR2 : ℚ

/-- The boolean membership mask of one DMX interval (line 841):
`(dmx["DMXR1"] <= psr.stoas / 86400) & (psr.stoas / 86400 < dmx["DMXR2"])`. -/
def dmwhich (stoasDay : List ℚ) (e : DMXEntry) : List Bool :=
  stoasDay.map (fun t => decide (e.DMXR1 ≤ t ∧ t < e.DMXR2))

/-- The constructor loop over `sorted(psr.dmx)` (lines 833-843): each
entry must have `fit` set (else the all-DMX-estimated ValueError) and its
key must be a fit parameter (else `psr.fitpars.index(key)` raises);
collect the interval masks in order. -/
def buildDMXMasks (stoasDay : List ℚ) (fitpars : List String) :
    List DMXEntry → Except String (List (List Bool))
  | [] => Except.ok []
  | e :: rest =>
    if e.fit = false then
      Except.error "WidebandTimingModel: all DMX parameters must be estimated."
    else if e.key ∉ fitpars then
      Except.error "DMX key is not a fit parameter"
    else
      match buildDMXMasks stoasDay fitpars rest with
      | Except.error m => Except.error m
      | Except.ok ws => Except.ok (dmwhich stoasDay e :: ws)

/-- Number of observations selected by one mask (`np.sum` of the mask
cast to integers, as in `check += self._dmwhich[-1]`). -/
def countTrue (w : List Bool) : Nat := (w.map (fun b => if b then 1 else 0)).sum

/-- The DMX-related validation of `WidebandTimingModel.__init__`
(lines 828-851): accumulate `check += which` over all intervals, raise if
`np.sum(check) != ntoas`, then raise if `"DM" in psr.fitpars`; on success
the collected interval masks are kept. -/
def widebandInit (stoasDay : List ℚ) (fitpars : List String) (dmx : List DMXEntry) :
    Except String (List (List Bool)) :=
  match buildDMXMasks stoasDay fitpars dmx with
  | Except.error m => Except.error m
  | Except.ok ws =>
    if (ws.map countTrue).sum ≠ stoasDay.length then
      Except.error "WidebandTimingModel: cannot account for all TOAs in DMX intervals."
    else if "DM" ∈ fitpars then
      Except.error "WidebandTimingModel: DM must not be estimated."
    else Except.ok ws

/-- How many interval masks select observation `j`. -/
def coverCount (ws : List (List Bool)) (j : Nat) : Nat :=
  (ws.map (fun w => if w.getD j false then 1 else 0)).sum

/-- Fixture DMX entry covering days `[-1, 1)`. -/
def dmxE1C6 : DMXEntry := ⟨"DMX_0001", true, 0, -1, 1⟩

/-- Second fixture DMX entry covering the same days `[-1, 1)`. -/
def dmxE2C6 : DMXEntry := ⟨"DMX_0002", true, 0, -1, 1⟩

/- ----------------------------------------------------------------- -/
/- `MarginalizingNmat.__add__` / `__radd__` (gp_signals.py lines
   1042-1053) and the shape dispatch of `MarginalizingNmat.solve`
   (lines 1075-1102).                                                    -/

/-- One additive noise contribution accepted by `__add__`: a numpy array,
or an object exposing a `solve` capability (identified opaquely). -/
inductive NoiseTerm
  | arr (a : List (List ℚ))
  | solveOp (id : Nat)

/-- The additive state of a `MarginalizingNmat`: the fixed timing-model
basis `Mmat` and the accumulated noise operator `Nmat` — the running
Python sum `((0 + t1) + t2) + ...` kept as the list of accumulated terms,
`[]` standing for the initial literal `0`. -/
structure MarginalizingNmat where
  Mmat : List (List ℚ)
  Nmat : List NoiseTerm

/-- The possible operands of `__add__`/`__radd__`, by the dispatch tests
of lines 1043-1050: another `MarginalizingNmat`; a numpy array or an
object with a `solve` attribute; an object comparing equal to `0`; any
other object. -/
inductive Addend
  | marg (m : MarginalizingNmat)
  | contrib (t : NoiseTerm)
  | zeroLit
  | other

/-- Python exceptions raised by the solve engine. -/
inductive PyErr
  | valueErr (msg : String)
  | typeErr

/-- `MarginalizingNmat.__add__` (lines 1042-1050). -/
def MarginalizingNmat.add (self : MarginalizingNmat) :
    Addend → Except PyErr MarginalizingNmat
  | Addend.marg _ =>
    Except.error (PyErr.valueErr "Cannot combine multiple MarginalizingNmat objects.")
  | Addend.contrib t => Except.ok ⟨self.Mmat, self.Nmat ++ [t]⟩
  | Addend.zeroLit => Except.ok self
  | Addend.other => Except.error PyErr.typeErr

/-- `MarginalizingNmat.__radd__` (lines 1052-1053): delegates to
`__add__`. -/
def MarginalizingNmat.radd (self : MarginalizingNmat) (o : Addend) :
    Except PyErr MarginalizingNmat :=
  self.add o

/-- The `left_array` argument of `MarginalizingNmat.solve` as seen by the
shape dispatch: absent (`None`), the same object as `right`, or a
distinct array of some ndim. -/
inductive LeftArg
  | noLeft
  | same
  | other (ndim : Nat)
deriving DecidableEq

/-- `left_array.ndim`, given `right.ndim = rndim`; `none` when absent. -/
def leftNdim (rndim : Nat) : LeftArg → Option Nat
  | LeftArg.noLeft => none
  | LeftArg.same => some rndim
  | LeftArg.other d => some d

/-- The shape dispatch of `MarginalizingNmat.solve` (lines 1075-1102):
which branch handles the `(right, left_array)` pair — 1: `right.ndim == 1
and left_array is right`; 2: `right.ndim == 1 and left_array is not None
and left_array.ndim == 2`; 3: `right.ndim == 2 and left_array is right`;
4: `left_array is not None and right.ndim == left_array.ndim and
right.ndim <= 2`; otherwise the invalid-argument ValueError. -/
def solveDispatch (rndim : Nat) (l : LeftArg) : Except PyErr Nat :=
  if rndim = 1 ∧ l = LeftArg.same then Except.ok 1
  else if rndim = 1 ∧ leftNdim rndim l = some 2 then Except.ok 2
  else if rndim = 2 ∧ l = LeftArg.same then Except.ok 3
  else if (leftNdim rndim l).isSome ∧ leftNdim rndim l = some rndim ∧ rndim ≤ 2 then
    Except.ok 4
  else Except.error (PyErr.valueErr "Incorrect arguments given to MarginalizingNmat.solve.")

/- ----------------------------------------------------------------- -/
/- `MarginalizingNmat` arithmetic for the vector-against-itself solve
   branch (gp_signals.py lines 1037-1040, 1056-1064, 1075-1083), over ℝ.
   The accumulated noise operator's `solve` capability and the external
   sksparse Cholesky factorization are opaque collaborators: the noise
   operator is modelled by the action of `N⁻¹` together with its
   log-determinant, and `cholesky` by a function producing a solve action
   and a log-determinant for a given core matrix.                        -/

namespace MargSolve

/-- The accumulated noise operator `self.Nmat`: its `solve` capability is
determined by the action of `N⁻¹` (`Ninv`), and `solve(..., logdet=True)`
also reports `logdetN`. -/
structure NoiseOp (n : Nat) where
  Ninv : Matrix (Fin n) (Fin n) ℝ
  logdetN : ℝ

/-- The result of the external `cholesky(...)` call: calling it on a
vector solves the factored system, and `.logdet()` reports the factor's
log-determinant. -/
structure CholFactor (k : Nat) where
  solveVec : (Fin k → ℝ) → (Fin k → ℝ)
  logdetC : ℝ

/-- `MarginalizingNmat.__init__` state: the fixed rank-`k` timing-model
basis `Mmat` (with `Mmat.shape[1] = k`), the noise operator, and the
external Cholesky factorization routine. -/
structure MarginalizingNmat (n k : Nat) where
  Mmat : Matrix (Fin n) (Fin k) ℝ
  Nmat : NoiseOp n
  cholesky : Matrix (Fin k) (Fin k) ℝ → CholFactor k

/-- `self.Mprior = Mmat.shape[1] * np.log(1e40)` (line 1040). -/
noncomputable def Mprior {n k : Nat} (m : MarginalizingNmat n k) : ℝ :=
  (k : ℝ) * Real.log 1e40

/-- The Woodbury core matrix
`MNM = self.Nmat.solve(self.Mmat, left_array=self.Mmat)`, i.e.
`Mᵀ N⁻¹ M` by the noise-operator solve contract (line 1059). -/
noncomputable def MNM {n k : Nat} (m : MarginalizingNmat n k) :
    Matrix (Fin k) (Fin k) ℝ :=
  m.Mmat.transpose * m.Nmat.Ninv * m.Mmat

/-- `self.cf = cholesky(MNM)` (lines 1056-1060, cached). -/
noncomputable def cf {n k : Nat} (m : MarginalizingNmat n k) : CholFactor k :=
  m.cholesky (MNM m)

/-- `self.MNr(res) = self.Nmat.solve(res, left_array=self.Mmat)`, i.e.
`Mᵀ N⁻¹ r` (lines 1062-1064). -/
noncomputable def MNr {n k : Nat} (m : MarginalizingNmat n k) (r : Fin n → ℝ) :
    Fin k → ℝ :=
  m.Mmat.transpose.mulVec (m.Nmat.Ninv.mulVec r)

/-- Return value of `MarginalizingNmat.solve`: a bare quadratic form, or
a `(value, logdet)` pair. -/
inductive SolveOut
  | scalar (x : ℝ)
  | withLogdet (x ld : ℝ)

/-- The `right.ndim == 1 and left_array is right` branch of
`MarginalizingNmat.solve` (lines 1076-1083):
`rNr, logdet_N = Nmat.solve(res, res, logdet=True)`;
`ret = rNr - MNr · cf(MNr)`; returns
`(ret, logdet_N + cf.logdet() + Mprior)` when `logdet` else `ret`. -/
noncomputable def solveVecSelf {n k : Nat} (m : MarginalizingNmat n k)
    (r : Fin n → ℝ) (wantLogdet : Bool) : SolveOut :=
  let rNr := Matrix.dotProduct r (m.Nmat.Ninv.mulVec r)
  let mnr := MNr m r
  let ret := rNr - Matrix.dotProduct mnr ((cf m).solveVec mnr)
  if wantLogdet then
    SolveOut.withLogdet ret (m.Nmat.logdetN + (cf m).logdetC + Mprior m)
  else SolveOut.scalar ret

end MargSolve

/- ----------------------------------------------------------------- -/
/- `BasisGP._get_coefficient_logprior` (gp_signals.py lines 136-147),
   over ℝ.  `KernelMatrix(phi).inv(logdet=True)` is the external
   inversion capability, modelled as the opaque `inv` argument returning
   the inverse matrix together with the log-determinant.                 -/

/-- The 1-D (diagonal-prior) branch (line 142):
`-0.5*np.sum(c*c/phi) - 0.5*np.sum(np.log(phi)) - 0.5*len(phi)*np.log(2*np.pi)`. -/
noncomputable def get_coefficient_logprior_diag (c phi : List ℝ) : ℝ :=
  -(1/2) * ((c.zip phi).map (fun p => p.1 * p.1 / p.2)).sum
    - (1/2) * (phi.map Real.log).sum
    - (1/2) * (phi.length : ℝ) * Real.log (2 * Real.pi)

/-- The 2-D (full-covariance) branch (lines 146-147):
`phiinv, logdet = KernelMatrix(phi).inv(logdet=True)` then
`-0.5*np.dot(c, np.dot(phiinv, c)) - 0.5*logdet - 0.5*phi.shape[0]*np.log(2*np.pi)`. -/
noncomputable def get_coefficient_logprior_full
    (inv : List (List ℝ) → List (List ℝ) × ℝ) (c : List ℝ) (phi : List (List ℝ)) : ℝ :=
  -(1/2) * dotL c (matvec (inv phi).1 c) - (1/2) * (inv phi).2
    - (1/2) * (phi.length : ℝ) * Real.log (2 * Real.pi)

/- ----------------------------------------------------------------- -/
/- Marginalized mode (gp_signals.py lines 174-181 for `BasisGP`, lines
   484-491 for `BasisCommonGP`): `coefficients=False` installs
   `get_delay` returning the literal `0` and an empty `delay_params`.    -/

/-- `BasisGP.get_delay` in marginalized mode (lines 180-181). -/
def BasisGP_marg_get_delay {P : Type} (params : P) : ℚ := 0

/-- `BasisGP.delay_params` in marginalized mode (lines 176-178). -/
def BasisGP_marg_delay_params : List String := []

/-- `BasisCommonGP.get_delay` in marginalized mode (lines 490-491). -/
def BasisCommonGP_marg_get_delay {P : Type} (params : P) : ℚ := 0

/-- `BasisCommonGP.delay_params` in marginalized mode (lines 486-488). -/
def BasisCommonGP_marg_delay_params : List String := []

end GPSignals

namespace GPSignals

theorem sliceStarts_length (acc : Nat) (ws : List Nat) :
    (sliceStarts acc ws).length = ws.length := by
  induction ws generalizing acc with
  | nil => rfl
  | cons w ws ih => simp [sliceStarts, ih]

theorem sliceStarts_getD (ws : List Nat) (acc i : Nat) (h : i < ws.length) :
    (sliceStarts acc ws).getD i (0, 0)
      = (acc + (ws.take i).sum, acc + (ws.take (i + 1)).sum) := by
  induction ws generalizing acc i with
  | nil => simp at h
  | cons w ws ih =>
    cases i with
    | zero => simp [sliceStarts]
    | succ j =>
      have hj : j < ws.length := by simpa using h
      simp only [sliceStarts, List.getD_cons_succ, List.take_succ_cons, List.sum_cons]
      rw [ih (acc + w) j hj]
      rw [Prod.mk.injEq]
      constructor <;> omega

theorem sliceStarts_fst_ge (ws : List Nat) (acc i : Nat) (h : i < ws.length) :
    acc ≤ ((sliceStarts acc ws).getD i (0, 0)).1 := by
  rw [sliceStarts_getD ws acc i h]
  exact Nat.le_add_right _ _

theorem sliceStarts_cover (ws : List Nat) (acc j : Nat)
    (h1 : acc ≤ j) (h2 : j < acc + ws.sum) :
    ∃! i : Nat, i < ws.length ∧
      ((sliceStarts acc ws).getD i (0, 0)).1 ≤ j ∧
      j < ((sliceStarts acc ws).getD i (0, 0)).2 := by
  induction ws generalizing acc with
  | nil => simp at h2; omega
  | cons w ws ih =>
    by_cases hcase : j < acc + w
    · refine ⟨0, ⟨by simp, ?_, ?_⟩, ?_⟩
      · simpa [sliceStarts] using h1
      · simpa [sliceStarts] using hcase
      · rintro i ⟨hi, hlo, hhi⟩
        cases i with
        | zero => rfl
        | succ i' =>
          exfalso
          have hi' : i' < ws.length := by simpa using hi
          have := sliceStarts_fst_ge ws (acc + w) i' hi'
          simp only [sliceStarts, List.getD_cons_succ] at hlo
          omega
    · have h1' : acc + w ≤ j := by omega
      have h2' : j < (acc + w) + ws.sum := by
        simp only [List.sum_cons] at h2; omega
      obtain ⟨i0, ⟨hi0, hlo0, hhi0⟩, huniq⟩ := ih (acc + w) h1' h2'
      refine ⟨i0 + 1, ⟨by simpa using hi0, ?_, ?_⟩, ?_⟩
      · simpa [sliceStarts] using hlo0
      · simpa [sliceStarts] using hhi0
      · rintro i ⟨hi, hlo, hhi⟩
        cases i with
        | zero =>
          exfalso
          simp only [sliceStarts, List.getD_cons_zero] at hhi
          omega
        | succ i' =>
          have hi' : i' < ws.length := by simpa using hi
          simp only [sliceStarts, List.getD_cons_succ] at hlo hhi
          have := huniq i' ⟨hi', hlo, hhi⟩
          omega

/-- C1: after `BasisGP._construct_basis` runs over the sorted selection
keys, the recorded per-key column slices are the contiguous half-open
ranges obtained by concatenating each key's basis width in sorted-key
order, and they partition `[0, total_columns)` exactly — no gaps, no
overlaps — where `total_columns` is the combined basis matrix's column
count. -/
theorem basisGP_slices_partition (nrows : Nat) (widths : List Nat) :
    (constructSlices widths).length = widths.length ∧
    (constructBasisShape nrows widths).2 = widths.sum ∧
    (∀ i, i < widths.length →
      (constructSlices widths).getD i (0, 0)
        = ((widths.take i).sum, (widths.take (i + 1)).sum)) ∧
    (∀ j, j < (constructBasisShape nrows widths).2 →
      ∃! i : Nat, i < (constructSlices widths).length ∧
        ((constructSlices widths).getD i (0, 0)).1 ≤ j ∧
        j < ((constructSlices widths).getD i (0, 0)).2) := by
  refine ⟨sliceStarts_length 0 widths, rfl, ?_, ?_⟩
  · intro i hi
    rw [constructSlices, sliceStarts_getD widths 0 i hi]
    simp
  · intro j hj
    have hcov := sliceStarts_cover widths 0 j (Nat.zero_le j) (by simpa using hj)
    rw [constructSlices]
    rw [sliceStarts_length 0 widths]
    exact hcov

/-- Witness for C1: concrete widths `[2, 3]` give total `5`; column `4`
lies in exactly one slice. -/
theorem basisGP_slices_partition_witness :
    ∃! i : Nat, i < (constructSlices [2, 3]).length ∧
      ((constructSlices [2, 3]).getD i (0, 0)).1 ≤ 4 ∧
      4 < ((constructSlices [2, 3]).getD i (0, 0)).2 :=
  (basisGP_slices_partition 7 [2, 3]).2.2.2 4 (by decide)

theorem writeSlice_length (c : List ℚ) (start : Nat) (v : List ℚ)
    (h : start + v.length ≤ c.length) :
    (writeSlice c start v).length = c.length := by
  simp only [writeSlice, List.length_append, List.length_take, List.length_drop]
  omega

theorem foldl_writeSlice_eq_join (params : List (String × List ℚ)) :
    ∀ (keys : List GPKey) (c : List ℚ) (acc : Nat),
      (∀ k ∈ keys, (coeffFor params k).length = k.width) →
      c.length = acc + (keys.map GPKey.width).sum →
      (keys.zip (sliceStarts acc (keys.map GPKey.width))).foldl
          (fun c ks => writeSlice c ks.2.1 (coeffFor params ks.1)) c
        = c.take acc ++ (keys.map (coeffFor params)).flatten := by
  intro keys
  induction keys with
  | nil =>
    intro c acc _ hc
    simp only [List.map_nil, List.sum_nil] at hc
    simp [List.take_of_length_le (show c.length ≤ acc by omega)]
  | cons k keys ih =>
    intro c acc hlen hc
    have hk : (coeffFor params k).length = k.width := hlen k (List.mem_cons_self k keys)
    have hrest : ∀ k' ∈ keys, (coeffFor params k').length = k'.width :=
      fun k' hk' => hlen k' (List.mem_cons_of_mem k hk')
    simp only [List.map_cons, List.sum_cons] at hc
    have hle : acc + (coeffFor params k).length ≤ c.length := by rw [hk]; omega
    have hw : (writeSlice c acc (coeffFor params k)).length
        = acc + k.width + (keys.map GPKey.width).sum := by
      rw [writeSlice_length c acc _ hle]; omega
    simp only [List.map_cons, sliceStarts, List.zip_cons_cons, List.foldl_cons]
    rw [ih (writeSlice c acc (coeffFor params k)) (acc + k.width) hrest hw]
    have hlenA : (c.take acc ++ coeffFor params k).length = acc + k.width := by
      simp only [List.length_append, List.length_take, hk]
      omega
    have htake : (writeSlice c acc (coeffFor params k)).take (acc + k.width)
        = c.take acc ++ coeffFor params k := by
      rw [writeSlice]
      exact List.take_left' hlenA
    rw [htake]
    simp [List.flatten_cons, List.append_assoc]

theorem list_getD_map {α β : Type} (f : α → β) (l : List α) (d : α) (e : β) :
    ∀ i, i < l.length → (l.map f).getD i e = f (l.getD i d) := by
  induction l with
  | nil => intro i h; simp at h
  | cons a l ih =>
    intro i hi
    cases i with
    | zero => simp
    | succ j => simpa using ih j (by simpa using hi)

theorem sum_take_succ_getD (ws : List Nat) :
    ∀ i, i < ws.length → (ws.take (i + 1)).sum = (ws.take i).sum + ws.getD i 0 := by
  induction ws with
  | nil => intro i h; simp at h
  | cons w ws ih =>
    intro i hi
    cases i with
    | zero => simp
    | succ j =>
      have := ih j (by simpa using hi)
      simp only [List.take_succ_cons, List.sum_cons, List.getD_cons_succ]
      omega

theorem flatten_drop_take (L : List (List ℚ)) :
    ∀ i, i < L.length →
      ((L.flatten.drop (((L.take i).map List.length).sum)).take ((L.getD i []).length))
        = L.getD i [] := by
  induction L with
  | nil => intro i h; simp at h
  | cons v L ih =>
    intro i hi
    cases i with
    | zero =>
      simp only [List.take_zero, List.map_nil, List.sum_nil, List.drop_zero,
        List.getD_cons_zero, List.flatten_cons]
      exact List.take_left v L.flatten
    | succ j =>
      have hj : j < L.length := by simpa using hi
      simp only [List.take_succ_cons, List.map_cons, List.sum_cons,
        List.getD_cons_succ, List.flatten_cons]
      have hdrop : (v ++ L.flatten).drop (v.length + ((L.take j).map List.length).sum)
          = L.flatten.drop (((L.take j).map List.length).sum) := by
        rw [← List.drop_drop, List.drop_left]
      rw [hdrop]
      exact ih j hj

/-- C3: in coefficient mode, `BasisGP.get_delay(params)` is the product
`basis @ c` of the combined basis with the assembled coefficient vector,
and for each selection key `k` (in sorted-key order), the sub-vector of
`c` at `k`'s recorded slice is exactly `params[p.name]` when the key's
coefficient-parameter name is present in `params` and the parameter's
point value `p.value` otherwise. -/
theorem basisGP_get_delay_coefficients (basis : List (List ℚ))
    (params : List (String × List ℚ)) (keys : List GPKey)
    (hlen : ∀ k ∈ keys, (coeffFor params k).length = k.width) :
    getDelayCoeff basis params keys = matvec basis (assembleCoeffs params keys) ∧
    ∀ i, i < keys.length →
      extractSlice (assembleCoeffs params keys)
          ((constructSlices (keys.map GPKey.width)).getD i (0, 0))
        = coeffFor params (keys.getD i ⟨0, "", []⟩) := by
  have hassemble : assembleCoeffs params keys = (keys.map (coeffFor params)).flatten := by
    rw [assembleCoeffs, constructSlices,
      foldl_writeSlice_eq_join params keys _ 0 hlen (by simp)]
    simp
  refine ⟨rfl, ?_⟩
  intro i hi
  have hiL : i < (keys.map (coeffFor params)).length := by simpa using hi
  have hiw : i < (keys.map GPKey.width).length := by simpa using hi
  have hmapw : (keys.map (coeffFor params)).map List.length = keys.map GPKey.width := by
    rw [List.map_map]
    exact List.map_congr_left (fun k hk => hlen k hk)
  rw [hassemble, constructSlices, sliceStarts_getD _ 0 i hiw]
  rw [extractSlice]
  simp only [Nat.zero_add]
  have hsum1 : ((keys.map GPKey.width).take (i + 1)).sum
      = ((keys.map GPKey.width).take i).sum + (keys.map GPKey.width).getD i 0 :=
    sum_take_succ_getD _ i hiw
  have hstart : ((keys.map GPKey.width).take i).sum
      = (((keys.map (coeffFor params)).take i).map List.length).sum := by
    rw [← List.map_take, ← List.map_take, List.map_map]
    congr 1
    exact (List.map_congr_left (fun k hk => hlen k (List.mem_of_mem_take hk))).symm
  have hwidth : (keys.map GPKey.width).getD i 0
      = ((keys.map (coeffFor params)).getD i []).length := by
    rw [← hmapw]
    exact list_getD_map List.length _ [] 0 i hiL
  have hgd : (keys.map (coeffFor params)).getD i []
      = coeffFor params (keys.getD i ⟨0, "", []⟩) :=
    list_getD_map (coeffFor params) keys ⟨0, "", []⟩ [] i hi
  rw [hsum1]
  have hdiff : ((keys.map GPKey.width).take i).sum + (keys.map GPKey.width).getD i 0
      - ((keys.map GPKey.width).take i).sum = (keys.map GPKey.width).getD i 0 := by
    omega
  rw [hdiff, hwidth, hstart, flatten_drop_take _ i hiL, hgd]

/-- Witness for C3: two keys of widths 1 and 2; the first key's
coefficient parameter is sampled in `params`, the second falls back to
its point value. -/
theorem basisGP_get_delay_coefficients_witness :
    getDelayCoeff [[1, 1, 1]] [("a", [7])] [⟨1, "a", [3]⟩, ⟨2, "b", [4, 5]⟩]
        = matvec [[1, 1, 1]]
            (assembleCoeffs [("a", [7])] [⟨1, "a", [3]⟩, ⟨2, "b", [4, 5]⟩]) ∧
    ∀ i, i < ([⟨1, "a", [3]⟩, ⟨2, "b", [4, 5]⟩] : List GPKey).length →
      extractSlice (assembleCoeffs [("a", [7])] [⟨1, "a", [3]⟩, ⟨2, "b", [4, 5]⟩])
          ((constructSlices (([⟨1, "a", [3]⟩, ⟨2, "b", [4, 5]⟩] : List GPKey).map GPKey.width)).getD i (0, 0))
        = coeffFor [("a", [7])] (([⟨1, "a", [3]⟩, ⟨2, "b", [4, 5]⟩] : List GPKey).getD i ⟨0, "", []⟩) :=
  basisGP_get_delay_coefficients [[1, 1, 1]] [("a", [7])]
    [⟨1, "a", [3]⟩, ⟨2, "b", [4, 5]⟩] (by decide)

theorem fftPSD_cutbins0_eq (g : ℚ → ℚ) (f0 : ℚ) (tail : List ℚ) :
    FFTBasisGP_constructPSD g 0 (f0 :: tail) = -(g f0) :: tail.map g := by
  simp [FFTBasisGP_constructPSD]

theorem fftCommonPSD_cutbins0_eq (g : ℚ → ℚ) (f0 : ℚ) (tail : List ℚ) :
    FFTBasisCommonGP_constructPSD g 0 (f0 :: tail) = -(g f0) :: tail.map g := by
  simp [FFTBasisCommonGP_constructPSD]

theorem fftPSD_cutpos_eq (g : ℚ → ℚ) (cb : Nat) (freqs : List ℚ) (h : cb ≠ 0) :
    FFTBasisGP_constructPSD g cb freqs
      = List.replicate cb 0 ++ ((freqs.drop 1).map g).drop (cb - 1) := by
  simp [FFTBasisGP_constructPSD, h]

theorem fftCommonPSD_cutpos_eq (g : ℚ → ℚ) (cb : Nat) (freqs : List ℚ) (h : cb ≠ 0) :
    FFTBasisCommonGP_constructPSD g cb freqs
      = List.replicate cb 0 ++ ((freqs.drop 1).map g).drop (cb - 1) := by
  simp [FFTBasisCommonGP_constructPSD, h]

theorem fftPSD_cutpos_getD (g : ℚ → ℚ) (cb : Nat) (freqs : List ℚ) (j : Nat)
    (hcb : 0 < cb) (hle : cb ≤ j) (hlt : j < freqs.length) :
    (FFTBasisGP_constructPSD g cb freqs).getD j 0 = g (freqs.getD j 0) := by
  rw [fftPSD_cutpos_eq g cb freqs (Nat.pos_iff_ne_zero.mp hcb)]
  rw [List.getD_append_right _ _ _ _ (by simpa using hle)]
  simp only [List.length_replicate]
  have hidx : cb - 1 + (j - cb) = j - 1 := by omega
  have h1 : 1 + (j - 1) = j := by omega
  simp only [List.getD, List.get?_eq_getElem?, List.getElem?_drop, List.getElem?_map,
    hidx, h1]
  rw [List.getElem?_eq_getElem hlt]
  simp

/-- Counterexample for C4: with the pointwise spectrum fixture `psdC4`
(value 5 at frequency zero, 7 elsewhere) on the frequency grid
`[0, 1, 2]` and `cutbins = 0`, the code puts `-psdC4 0 = -5` at the
synthetic zero-frequency bin, not the sign-flipped first-nonzero-frequency
value `-psdC4 1 = -7` the claim asserts. -/
theorem fft_psd_cutbins0_counterexample :
    ¬ ((FFTBasisGP_constructPSD psdC4 0 [0, 1, 2]).getD 0 0 = -(psdC4 1)) := by
  decide

/-- C4 (amended): in both FFT variants, when `cutbins = 0` the PSD handed
to the PSD-to-covariance transform is the sign-flipped generator value at
the grid's zero-frequency entry (`-g freqs[0]`, an evaluation at the zero
frequency under the modified spacing, not a mirror of the first nonzero
frequency's value), followed by the generator's values at the nonzero
frequencies unmodified; when `cutbins > 0` the PSD has exactly `cutbins`
leading zero bins and every later bin carries the generator's value at
that bin's own frequency, unmodified. -/
theorem fft_psd_spec (g : ℚ → ℚ) :
    (∀ f0 tail, FFTBasisGP_constructPSD g 0 (f0 :: tail) = -(g f0) :: tail.map g) ∧
    (∀ f0 tail, FFTBasisCommonGP_constructPSD g 0 (f0 :: tail) = -(g f0) :: tail.map g) ∧
    (∀ cb freqs, 0 < cb →
      FFTBasisGP_constructPSD g cb freqs
        = List.replicate cb 0 ++ ((freqs.drop 1).map g).drop (cb - 1)) ∧
    (∀ cb freqs, 0 < cb →
      FFTBasisCommonGP_constructPSD g cb freqs
        = List.replicate cb 0 ++ ((freqs.drop 1).map g).drop (cb - 1)) ∧
    (∀ cb freqs j, 0 < cb → cb ≤ j → j < freqs.length →
      (FFTBasisGP_constructPSD g cb freqs).getD j 0 = g (freqs.getD j 0)) := by
  refine ⟨fftPSD_cutbins0_eq g, fftCommonPSD_cutbins0_eq g, ?_, ?_, ?_⟩
  · intro cb freqs hcb
    exact fftPSD_cutpos_eq g cb freqs (Nat.pos_iff_ne_zero.mp hcb)
  · intro cb freqs hcb
    exact fftCommonPSD_cutpos_eq g cb freqs (Nat.pos_iff_ne_zero.mp hcb)
  · intro cb freqs j hcb hle hlt
    exact fftPSD_cutpos_getD g cb freqs j hcb hle hlt

/-- Witness for C4 (amended): `cutbins = 1` on the grid `[0, 1]`; bin 1
carries the generator's value at frequency 1. -/
theorem fft_psd_spec_witness :
    (FFTBasisGP_constructPSD psdC4 1 [0, 1]).getD 1 0
      = psdC4 (([0, 1] : List ℚ).getD 1 0) :=
  (fft_psd_spec psdC4).2.2.2.2 1 [0, 1] 1 (by decide) (by decide) (by decide)

/-- Counterexample for C5: with the symmetric (constant) ORF fixture and
the identity prior, two instances of the same class whose label arrays
differ (`[1]` vs `[2]`) give `get_phicross(a, b)` and `get_phicross(b, a)`
of different magnitude. -/
theorem commonGP_phicross_not_symmetric :
    (∀ p q : List ℚ, orfC5 () p q = orfC5 () q p) ∧
    (BasisCommonGP_getPhicross priorC5 orfC5 instAC5 instBC5 ()).map (fun x => |x|)
      ≠ (BasisCommonGP_getPhicross priorC5 orfC5 instBC5 instAC5 ()).map (fun x => |x|) :=
  ⟨fun _ _ => rfl, by
    norm_num [BasisCommonGP_getPhicross, priorC5, orfC5, instAC5, instBC5]⟩

/-- C5 (amended): `get_phicross(a, b, params)` equals the shared prior on
`a`'s labels (for the FFT variant, `a`'s cached prior) elementwise times
the ORF at `(a.pos, b.pos)`; and it is symmetric (hence symmetric in
magnitude) under swapping `a` and `b` whenever the ORF value is symmetric
in the two positions AND the two instances' prior arrays coincide (e.g.
identical label grids) — with differing per-instance labels the swap can
change the magnitude. -/
theorem commonGP_phicross_spec {P : Type} (prior : P → List ℚ → List ℚ)
    (constructPrior : P → CommonInst → List ℚ)
    (orf : P → List ℚ → List ℚ → ℚ) (a b : CommonInst) (p : P) :
    BasisCommonGP_getPhicross prior orf a b p
      = (prior p a.labels).map (fun x => x * orf p a.psrpos b.psrpos) ∧
    FFTBasisCommonGP_getPhicross constructPrior orf a b p
      = (constructPrior p a).map (fun x => x * orf p a.psrpos b.psrpos) ∧
    (orf p a.psrpos b.psrpos = orf p b.psrpos a.psrpos →
      prior p a.labels = prior p b.labels →
      BasisCommonGP_getPhicross prior orf a b p
        = BasisCommonGP_getPhicross prior orf b a p ∧
      (BasisCommonGP_getPhicross prior orf a b p).map (fun x => |x|)
        = (BasisCommonGP_getPhicross prior orf b a p).map (fun x => |x|)) ∧
    (orf p a.psrpos b.psrpos = orf p b.psrpos a.psrpos →
      constructPrior p a = constructPrior p b →
      FFTBasisCommonGP_getPhicross constructPrior orf a b p
        = FFTBasisCommonGP_getPhicross constructPrior orf b a p ∧
      (FFTBasisCommonGP_getPhicross constructPrior orf a b p).map (fun x => |x|)
        = (FFTBasisCommonGP_getPhicross constructPrior orf b a p).map (fun x => |x|)) := by
  refine ⟨rfl, rfl, ?_, ?_⟩
  · intro horf hprior
    have heq : BasisCommonGP_getPhicross prior orf a b p
        = BasisCommonGP_getPhicross prior orf b a p := by
      rw [BasisCommonGP_getPhicross, BasisCommonGP_getPhicross, horf, hprior]
    exact ⟨heq, by rw [heq]⟩
  · intro horf hprior
    have heq : FFTBasisCommonGP_getPhicross constructPrior orf a b p
        = FFTBasisCommonGP_getPhicross constructPrior orf b a p := by
      rw [FFTBasisCommonGP_getPhicross, FFTBasisCommonGP_getPhicross, horf, hprior]
    exact ⟨heq, by rw [heq]⟩

/-- Witness for C5 (amended): equal-label instances `instAC5`, `instCC5`
with the constant ORF give a symmetric phicross. -/
theorem commonGP_phicross_spec_witness :
    BasisCommonGP_getPhicross priorC5 orfC5 instAC5 instCC5 ()
      = BasisCommonGP_getPhicross priorC5 orfC5 instCC5 instAC5 ()
      ∧ (BasisCommonGP_getPhicross priorC5 orfC5 instAC5 instCC5 ()).map (fun x => |x|)
      = (BasisCommonGP_getPhicross priorC5 orfC5 instCC5 instAC5 ()).map (fun x => |x|) :=
  (commonGP_phicross_spec priorC5 (fun _ i => i.labels) orfC5 instAC5 instCC5 ()).2.2.1
    rfl rfl

theorem countTrue_eq_sum (w : List Bool) :
    countTrue w = ∑ j in Finset.range w.length, (if w.getD j false then 1 else 0) := by
  induction w with
  | nil => simp [countTrue]
  | cons b w ih =>
    simp only [countTrue, List.map_cons, List.sum_cons, List.length_cons]
    rw [Finset.sum_range_succ']
    simp only [List.getD_cons_succ, List.getD_cons_zero]
    rw [← countTrue, ih]
    omega

theorem coverCount_cons (w : List Bool) (ws : List (List Bool)) (j : Nat) :
    coverCount (w :: ws) j = (if w.getD j false then 1 else 0) + coverCount ws j := by
  simp [coverCount]

theorem totalCount_eq_sum_cover (n : Nat) :
    ∀ ws : List (List Bool), (∀ w ∈ ws, w.length = n) →
      (ws.map countTrue).sum = ∑ j in Finset.range n, coverCount ws j := by
  intro ws
  induction ws with
  | nil => intro _; simp [coverCount]
  | cons w ws ih =>
    intro h
    have hw : w.length = n := h w (List.mem_cons_self w ws)
    have hrest : ∀ w' ∈ ws, w'.length = n :=
      fun w' hw' => h w' (List.mem_cons_of_mem w hw')
    simp only [List.map_cons, List.sum_cons]
    rw [ih hrest, countTrue_eq_sum, hw, ← Finset.sum_add_distrib]
    exact Finset.sum_congr rfl (fun j _ => (coverCount_cons w ws j).symm)

theorem buildDMXMasks_ok_of (s : List ℚ) (f : List String) :
    ∀ d : List DMXEntry, (∀ e ∈ d, e.fit = true ∧ e.key ∈ f) →
      buildDMXMasks s f d = Except.ok (d.map (dmwhich s)) := by
  intro d
  induction d with
  | nil => intro _; rfl
  | cons e rest ih =>
    intro h
    have he := h e (List.mem_cons_self e rest)
    have hrest : ∀ e' ∈ rest, e'.fit = true ∧ e'.key ∈ f :=
      fun e' he' => h e' (List.mem_cons_of_mem e he')
    rw [buildDMXMasks, if_neg (by simp [he.1]), if_neg (not_not_intro he.2), ih hrest,
      List.map_cons]

theorem buildDMXMasks_ok_inv (s : List ℚ) (f : List String) :
    ∀ (d : List DMXEntry) (ws : List (List Bool)),
      buildDMXMasks s f d = Except.ok ws →
      (∀ e ∈ d, e.fit = true ∧ e.key ∈ f) ∧ ws = d.map (dmwhich s) := by
  intro d
  induction d with
  | nil =>
    intro ws h
    simp only [buildDMXMasks, Except.ok.injEq] at h
    exact ⟨by simp, h.symm⟩
  | cons e rest ih =>
    intro ws h
    rw [buildDMXMasks] at h
    by_cases hfit : e.fit = false
    · rw [if_pos hfit] at h
      exact absurd h (by simp)
    · rw [if_neg hfit] at h
      by_cases hkey : e.key ∈ f
      · rw [if_neg (not_not_intro hkey)] at h
        cases hrec : buildDMXMasks s f rest with
        | error m =>
          rw [hrec] at h
          exact absurd h (by simp)
        | ok ws' =>
          rw [hrec] at h
          have hws : ws = dmwhich s e :: ws' := by
            simpa using h.symm
          obtain ⟨hall, hws'⟩ := ih ws' hrec
          have hfit' : e.fit = true := by
            cases hb : e.fit
            · exact absurd hb hfit
            · rfl
          refine ⟨?_, ?_⟩
          · intro e' he'
            rcases List.mem_cons.mp he' with hcase | hcase
            · subst hcase; exact ⟨hfit', hkey⟩
            · exact hall e' hcase
          · rw [hws, hws', List.map_cons]
      · rw [if_pos hkey] at h
        exact absurd h (by simp)

theorem widebandInit_ok_iff (s : List ℚ) (f : List String) (d : List DMXEntry) :
    (∃ ws, widebandInit s f d = Except.ok ws) ↔
      ((∀ e ∈ d, e.fit = true ∧ e.key ∈ f) ∧
       (d.map (fun e => countTrue (dmwhich s e))).sum = s.length ∧
       "DM" ∉ f) := by
  constructor
  · rintro ⟨ws, h⟩
    rw [widebandInit] at h
    cases hb : buildDMXMasks s f d with
    | error m => rw [hb] at h; exact absurd h (by simp)
    | ok ws0 =>
      rw [hb] at h
      dsimp only at h
      obtain ⟨hall, hws0⟩ := buildDMXMasks_ok_inv s f d ws0 hb
      by_cases hsum : (ws0.map countTrue).sum ≠ s.length
      · rw [if_pos hsum] at h
        exact absurd h (by simp)
      · rw [if_neg hsum] at h
        by_cases hdm : "DM" ∈ f
        · rw [if_pos hdm] at h
          exact absurd h (by simp)
        · refine ⟨hall, ?_, hdm⟩
          have hsum' : (ws0.map countTrue).sum = s.length := by omega
          rw [hws0, List.map_map] at hsum'
          exact hsum'
  · rintro ⟨hall, hsum, hdm⟩
    refine ⟨d.map (dmwhich s), ?_⟩
    rw [widebandInit, buildDMXMasks_ok_of s f d hall]
    dsimp only
    have hsum2 : ((d.map (dmwhich s)).map countTrue).sum = s.length := by
      rw [List.map_map]
      exact hsum
    rw [if_neg (not_not_intro hsum2), if_neg hdm]

/-- Counterexample for C6: two DMX intervals that both cover the first
observation while the second observation is covered by none.  The total
incidence count is still `ntoas = 2`, so `WidebandTimingModel.__init__`
accepts the configuration even though coverage is not exactly-once. -/
theorem widebandInit_coverage_counterexample :
    widebandInit [0, 10] ["DMX_0001", "DMX_0002"] [dmxE1C6, dmxE2C6]
        = Except.ok [[true, false], [true, false]] ∧
    coverCount [[true, false], [true, false]] 0 = 2 ∧
    coverCount [[true, false], [true, false]] 1 = 0 :=
  ⟨rfl, by decide, by decide⟩

/-- C6 (amended): `WidebandTimingModel` construction succeeds iff every
DMX entry is marked fit, every DMX key is a fit parameter, the TOTAL
number of (interval, observation) coverage incidences equals the number
of observations, and `"DM"` is not among the fit parameters.  Exact
once-each coverage implies the incidence-count condition (so the intended
configurations pass), but the check only counts incidences, so a
double-covered observation can compensate an uncovered one; `"DM"` among
the fit parameters always raises. -/
theorem widebandInit_spec (s : List ℚ) (f : List String) (d : List DMXEntry) :
    ((∃ ws, widebandInit s f d = Except.ok ws) ↔
      ((∀ e ∈ d, e.fit = true ∧ e.key ∈ f) ∧
       (d.map (fun e => countTrue (dmwhich s e))).sum = s.length ∧
       "DM" ∉ f)) ∧
    ("DM" ∈ f → ∀ ws, widebandInit s f d ≠ Except.ok ws) ∧
    ((∀ j, j < s.length → coverCount (d.map (dmwhich s)) j = 1) →
      (d.map (fun e => countTrue (dmwhich s e))).sum = s.length) := by
  refine ⟨widebandInit_ok_iff s f d, ?_, ?_⟩
  · intro hdm ws h
    have := (widebandInit_ok_iff s f d).mp ⟨ws, h⟩
    exact this.2.2 hdm
  · intro hcover
    have hlens : ∀ w ∈ d.map (dmwhich s), w.length = s.length := by
      intro w hw
      obtain ⟨e, _, he⟩ := List.mem_map.mp hw
      rw [← he, dmwhich, List.length_map]
    have := totalCount_eq_sum_cover s.length (d.map (dmwhich s)) hlens
    rw [List.map_map] at this
    have hsum1 : ∑ j in Finset.range s.length, coverCount (d.map (dmwhich s)) j
        = s.length := by
      rw [Finset.sum_congr rfl (fun j hj => hcover j (Finset.mem_range.mp hj))]
      simp
    rw [← hsum1]
    simpa [Function.comp] using this

/-- Witness for C6 (amended): one interval exactly covering the single
observation; the incidence count matches the observation count. -/
theorem widebandInit_spec_witness :
    (([dmxE1C6] : List DMXEntry).map (fun e => countTrue (dmwhich [0] e))).sum
      = ([0] : List ℚ).length :=
  (widebandInit_spec [0] ["DMX_0001"] [dmxE1C6]).2.2
    (by
      intro j hj
      have hj0 : j = 0 := by
        simpa using hj
      subst hj0
      decide)

/-- C7: `MarginalizingNmat` addition raises the forbidden-combination
ValueError on another `MarginalizingNmat`; on a numpy array or any
object with a `solve` capability it returns a new instance with the same
basis and the operand accumulated into the noise operator; the literal
`0` is a no-op returning the same instance; and `__radd__` (addition on
the left) behaves identically. -/
theorem marginalizingNmat_add_spec (self m : MarginalizingNmat) (t : NoiseTerm) :
    self.add (Addend.marg m)
      = Except.error (PyErr.valueErr "Cannot combine multiple MarginalizingNmat objects.") ∧
    self.add (Addend.contrib t) = Except.ok ⟨self.Mmat, self.Nmat ++ [t]⟩ ∧
    (∀ r, self.add (Addend.contrib t) = Except.ok r →
      r.Mmat = self.Mmat ∧ r.Nmat = self.Nmat ++ [t]) ∧
    self.add Addend.zeroLit = Except.ok self ∧
    self.add Addend.other = Except.error PyErr.typeErr ∧
    (∀ o, self.radd o = self.add o) := by
  refine ⟨rfl, rfl, ?_, rfl, rfl, fun _ => rfl⟩
  intro r hr
  have : r = ⟨self.Mmat, self.Nmat ++ [t]⟩ := by
    simpa [MarginalizingNmat.add] using hr.symm
  rw [this]
  exact ⟨rfl, rfl⟩

/-- Witness for C7: adding a concrete array operand to a concrete engine
yields an engine with the same basis and the operand appended to the
accumulated noise. -/
theorem marginalizingNmat_add_spec_witness :
    (MarginalizingNmat.mk [[1]] [NoiseTerm.arr [[2]]]).Mmat
        = (MarginalizingNmat.mk [[1]] []).Mmat ∧
    (MarginalizingNmat.mk [[1]] [NoiseTerm.arr [[2]]]).Nmat
        = (MarginalizingNmat.mk [[1]] []).Nmat ++ [NoiseTerm.arr [[2]]] :=
  (marginalizingNmat_add_spec (MarginalizingNmat.mk [[1]] [])
      (MarginalizingNmat.mk [[1]] []) (NoiseTerm.arr [[2]])).2.2.1
    (MarginalizingNmat.mk [[1]] [NoiseTerm.arr [[2]]]) rfl

/-- Counterexample for C8: a 0-d (scalar) right operand with a distinct
0-d left operand is none of the four claimed combinations — not a vector,
not a matrix, and neither operand is the other — yet the dispatch accepts
it through the equal-ndim branch instead of failing. -/
theorem solveDispatch_counterexample :
    solveDispatch 0 (LeftArg.other 0) = Except.ok 4 := rfl

/-- C8 (amended): the shape dispatch of `MarginalizingNmat.solve`
succeeds exactly when `left_array` is the same object as `right` with
`right.ndim ≤ 2` (covering vector-against-itself and
matrix-against-itself, but also 0-d against itself), or `right` is 1-D
and `left_array` is a distinct 2-D array, or `left_array` is a distinct
array of the same ndim as `right` with ndim ≤ 2 (covering general
matrix-against-matrix, but also vector-against-a-distinct-vector and
scalar-against-scalar); every other combination — and only those —
raises the invalid-argument ValueError. -/
theorem solveDispatch_spec (rndim : Nat) (l : LeftArg) :
    ((∃ b, solveDispatch rndim l = Except.ok b) ↔
      ((l = LeftArg.same ∧ rndim ≤ 2) ∨ (rndim = 1 ∧ l = LeftArg.other 2) ∨
       (l = LeftArg.other rndim ∧ rndim ≤ 2))) ∧
    (¬ ((l = LeftArg.same ∧ rndim ≤ 2) ∨ (rndim = 1 ∧ l = LeftArg.other 2) ∨
       (l = LeftArg.other rndim ∧ rndim ≤ 2)) →
      solveDispatch rndim l
        = Except.error
            (PyErr.valueErr "Incorrect arguments given to MarginalizingNmat.solve.")) := by
  cases l with
  | noLeft =>
    constructor
    · simp [solveDispatch, leftNdim]
    · intro _
      simp [solveDispatch, leftNdim]
  | same =>
    constructor
    · constructor
      · rintro ⟨b, hb⟩
        by_contra hcon
        have hr : ¬ rndim ≤ 2 := by
          intro hle
          exact hcon (Or.inl ⟨rfl, hle⟩)
        have h1 : rndim ≠ 1 := by omega
        have h2 : rndim ≠ 2 := by omega
        simp [solveDispatch, leftNdim, h1, h2, hr] at hb
      · intro h
        rcases h with ⟨_, hle⟩ | ⟨h1, hbad⟩ | ⟨hbad, _⟩
        · by_cases h1 : rndim = 1
          · exact ⟨1, by simp [solveDispatch, h1]⟩
          · by_cases h2 : rndim = 2
            · exact ⟨3, by simp [solveDispatch, leftNdim, h1, h2]⟩
            · exact ⟨4, by simp [solveDispatch, leftNdim, h1, h2, hle]⟩
        · exact absurd hbad (by simp)
        · exact absurd hbad (by simp)
    · intro hcon
      have hr : ¬ rndim ≤ 2 := by
        intro hle
        exact hcon (Or.inl ⟨rfl, hle⟩)
      have h1 : rndim ≠ 1 := by omega
      have h2 : rndim ≠ 2 := by omega
      simp [solveDispatch, leftNdim, h1, h2, hr]
  | other d =>
    constructor
    · constructor
      · rintro ⟨b, hb⟩
        by_cases h12 : rndim = 1 ∧ d = 2
        · exact Or.inr (Or.inl ⟨h12.1, by rw [h12.2]⟩)
        · by_cases hdr : d = rndim ∧ rndim ≤ 2
          · exact Or.inr (Or.inr ⟨by rw [hdr.1], hdr.2⟩)
          · exfalso
            have hne : ¬ (rndim = 1 ∧ (some d : Option Nat) = some 2) := by
              rintro ⟨ha, hbeq⟩
              exact h12 ⟨ha, by simpa using hbeq⟩
            have hne2 : ¬ ((some d : Option Nat) = some rndim ∧ rndim ≤ 2) := by
              rintro ⟨ha, hble⟩
              exact hdr ⟨by simpa using ha, hble⟩
            simp only [solveDispatch, leftNdim] at hb
            rw [if_neg (by simp), if_neg (by tauto), if_neg (by simp),
              if_neg (by tauto)] at hb
            exact absurd hb (by simp)
      · intro h
        rcases h with ⟨hbad, _⟩ | ⟨h1, hd⟩ | ⟨hd, hle⟩
        · exact absurd hbad (by simp)
        · have hd2 : d = 2 := by
            have := hd
            simp only [LeftArg.other.injEq] at this
            omega
          refine ⟨2, ?_⟩
          simp only [solveDispatch, leftNdim]
          rw [if_neg (by simp), if_pos ⟨h1, by rw [hd2]⟩]
        · have hdr : d = rndim := by
            simp only [LeftArg.other.injEq] at hd
            omega
          subst hdr
          refine ⟨4, ?_⟩
          simp only [solveDispatch, leftNdim]
          rw [if_neg (by simp),
            if_neg (by rintro ⟨h1, hb⟩; simp only [Option.some.injEq] at hb; omega),
            if_neg (by simp), if_pos (by exact ⟨rfl, trivial, hle⟩)]
    · intro hcon
      have h12 : ¬ (rndim = 1 ∧ d = 2) := by
        rintro ⟨ha, hb⟩
        exact hcon (Or.inr (Or.inl ⟨ha, by rw [hb]⟩))
      have hdr : ¬ (d = rndim ∧ rndim ≤ 2) := by
        rintro ⟨ha, hb⟩
        exact hcon (Or.inr (Or.inr ⟨by rw [ha], hb⟩))
      simp only [solveDispatch, leftNdim]
      rw [if_neg (by simp), if_neg (by rintro ⟨ha, hb⟩; exact h12 ⟨ha, by simpa using hb⟩),
        if_neg (by simp), if_neg (by rintro ⟨_, hb, hc⟩; exact hdr ⟨by simpa using hb, hc⟩)]

/-- Witness for C8 (amended): `solve` with no `left_array` and a 3-D
right operand raises the invalid-argument ValueError. -/
theorem solveDispatch_spec_witness :
    solveDispatch 3 LeftArg.noLeft
      = Except.error
          (PyErr.valueErr "Incorrect arguments given to MarginalizingNmat.solve.") :=
  (solveDispatch_spec 3 LeftArg.noLeft).2 (by decide)

/-- C2: for a `MarginalizingNmat` wrapping a rank-`k` basis `M` and noise
operator `N`, `solve(r, left_array=r, logdet=True)` on a 1-D `r` returns
the marginalized quadratic form `rᵀN⁻¹r - MNr · cf(MNr)` together with
the total log-determinant
`logdet(N) + logdet(cholesky(MᵀN⁻¹M)) + k*log(1e40)`; with
`logdet=False` it returns the quadratic form alone. -/
theorem marginalizingNmat_solve_vec_self {n k : Nat}
    (m : MargSolve.MarginalizingNmat n k) (r : Fin n → ℝ) :
    MargSolve.solveVecSelf m r true
      = MargSolve.SolveOut.withLogdet
          (Matrix.dotProduct r (m.Nmat.Ninv.mulVec r)
            - Matrix.dotProduct (MargSolve.MNr m r)
                ((m.cholesky (m.Mmat.transpose * m.Nmat.Ninv * m.Mmat)).solveVec
                  (MargSolve.MNr m r)))
          (m.Nmat.logdetN
            + (m.cholesky (m.Mmat.transpose * m.Nmat.Ninv * m.Mmat)).logdetC
            + (k : ℝ) * Real.log 1e40) ∧
    MargSolve.solveVecSelf m r false
      = MargSolve.SolveOut.scalar
          (Matrix.dotProduct r (m.Nmat.Ninv.mulVec r)
            - Matrix.dotProduct (MargSolve.MNr m r)
                ((m.cholesky (m.Mmat.transpose * m.Nmat.Ninv * m.Mmat)).solveVec
                  (MargSolve.MNr m r))) :=
  ⟨rfl, rfl⟩

theorem list_map_sum_eq_finSum (f : ℝ → ℝ) :
    ∀ l : List ℝ, (l.map f).sum = ∑ i : Fin l.length, f (l.getD i 0) := by
  intro l
  induction l with
  | nil => simp
  | cons a l ih =>
    simp only [List.map_cons, List.sum_cons, List.length_cons, Fin.sum_univ_succ]
    rw [ih]
    simp

theorem zip_quad_sum_eq_finSum :
    ∀ c phi : List ℝ, c.length = phi.length →
      ((c.zip phi).map (fun p => p.1 * p.1 / p.2)).sum
        = ∑ i : Fin phi.length, c.getD i 0 * c.getD i 0 / phi.getD i 0 := by
  intro c
  induction c with
  | nil =>
    intro phi h
    have : phi = [] := List.eq_nil_of_length_eq_zero h.symm
    subst this
    simp
  | cons a c ih =>
    intro phi h
    cases phi with
    | nil => simp at h
    | cons b phi =>
      have h' : c.length = phi.length := by simpa using h
      simp only [List.zip_cons_cons, List.map_cons, List.sum_cons, List.length_cons,
        Fin.sum_univ_succ]
      rw [ih phi h']
      simp

/-- C9: the coefficient-mode log-prior density for one key is the
Gaussian log-density: in the 1-D (diagonal) case
`-0.5*Σ c²/phi - 0.5*Σ log(phi) - 0.5*n*log(2π)` with `n = len(phi)`
(so `phi = [1,1]`, `c = [0,0]` gives `-log(2π)`); in the 2-D
(full-covariance) case `-0.5*cᵀ(phi⁻¹)c - 0.5*logdet - 0.5*n*log(2π)`
computed through the prior's own inversion-with-log-determinant
capability. -/
theorem basisGP_coefficient_logprior (c phi : List ℝ) (h : c.length = phi.length) :
    (get_coefficient_logprior_diag c phi
      = -(1/2) * (∑ i : Fin phi.length, c.getD i 0 * c.getD i 0 / phi.getD i 0)
        - (1/2) * (∑ i : Fin phi.length, Real.log (phi.getD i 0))
        - (1/2) * (phi.length : ℝ) * Real.log (2 * Real.pi)) ∧
    get_coefficient_logprior_diag [0, 0] [1, 1] = -Real.log (2 * Real.pi) ∧
    (∀ (inv : List (List ℝ) → List (List ℝ) × ℝ) (c' : List ℝ) (phi' : List (List ℝ)),
      get_coefficient_logprior_full inv c' phi'
        = -(1/2) * dotL c' (matvec (inv phi').1 c') - (1/2) * (inv phi').2
          - (1/2) * (phi'.length : ℝ) * Real.log (2 * Real.pi)) := by
  refine ⟨?_, ?_, fun _ _ _ => rfl⟩
  · rw [get_coefficient_logprior_diag, zip_quad_sum_eq_finSum c phi h,
      list_map_sum_eq_finSum Real.log phi]
  · rw [get_coefficient_logprior_diag]
    norm_num [Real.log_one]

/-- Witness for C9: the concrete pair `phi = [1,1]`, `c = [0,0]`
evaluates to `-log(2π)`. -/
theorem basisGP_coefficient_logprior_witness :
    get_coefficient_logprior_diag [0, 0] [1, 1] = -Real.log (2 * Real.pi) :=
  (basisGP_coefficient_logprior [0, 0] [1, 1] (by decide)).2.1

/-- C10: a `BasisGP` or `BasisCommonGP` signal built with
`coefficients=False` (marginalized mode) has `get_delay(params) = 0` for
every params mapping and an empty `delay_params` list — it never
contributes a deterministic delay. -/
theorem marg_get_delay_zero :
    (∀ p : List (String × ℚ), BasisGP_marg_get_delay p = 0) ∧
    BasisGP_marg_delay_params = [] ∧
    (∀ p : List (String × ℚ), BasisCommonGP_marg_get_delay p = 0) ∧
    BasisCommonGP_marg_delay_params = [] :=
  ⟨fun _ => rfl, rfl, fun _ => rfl, rfl⟩
